import Mathlib

set_option maxRecDepth 100000

/-!
Verification of the `visual-dc` repository (`src/dcparse.py`): a reverse-Polish
stack calculator with a regex-registry tokeniser, an ordered command-dispatch
table, and an executor running parsed programs against a mutable stack under a
Python `decimal` arithmetic context.

Shallow embedding conventions:
* Python `Decimal` values are modelled as exact rationals (`ℚ`); every context
  operation (`+ - * /`, `create_decimal`, …) rounds its exact result to the
  context's precision (significant digits, round-half-even — the `decimal`
  default), via `roundSig`.
* Python `int` values pushed by `z`, `K` and `I`/`O` are also modelled as
  `Value.num`; the distinction is immaterial to the claims considered.
* The Python stack list keeps the top of the stack at the END of the list; the
  Lean model keeps the top at the HEAD of the list (so `push` is `cons`); all
  handlers are translated accordingly.
* Exceptions: `IndexError` from popping an empty stack (the only exception
  `run_commands` converts to `EmptyStackError`) is `ExecErr.emptyStack`;
  every other (uncaught, run-fatal) Python exception — `decimal`
  `InvalidOperation`/`DivisionByZero`, `ValueError`, `TypeError`, `KeyError`,
  `AttributeError` — is `ExecErr.fatal`.
-/

namespace VisualDC

/-- A value on the dc stack: a `decimal.Decimal` (modelled as an exact
rational) or a `DecimalMultipliableString` text literal. -/
inductive Value : Type where
  | num (q : ℚ)
  | text (s : List Char)
deriving DecidableEq, Repr

/-- The `decimal` arithmetic context.  Only the precision (significant digits)
is modelled; the exponent bounds (`Emax=100000` in `main`) are far beyond
anything the programs considered here produce, and the rounding mode is the
default `ROUND_HALF_EVEN`. -/
structure Ctx : Type where
  prec : ℕ
deriving DecidableEq, Repr

/-- CPython's `_decimal` upper bound for `Context.prec` (`MAX_PREC` on 64-bit
builds); assigning `prec` outside `1 ≤ prec ≤ maxPrec` raises `ValueError`. -/
def maxPrec : ℕ := 999999999999999999

/-!
Arithmetic helpers.  The `Rat` operations `+ - * / ⁻¹` are `@[irreducible]`
in the standard library, so closed claims about concrete program runs could
not be checked by kernel reduction through them.  The helpers below compute
the same functions (the `q*_eq` bridge lemmas prove it) by structural
recursion on `Rat.divInt`, `Int` and `ℕ`, which the kernel evaluates.
-/

/-- `a + b` on `ℚ`, kernel-reducible (see `qAdd_eq`). -/
def qAdd (a b : ℚ) : ℚ := Rat.divInt (a.num * b.den + b.num * a.den) (a.den * b.den)

/-- `a - b` on `ℚ`, kernel-reducible (see `qSub_eq`). -/
def qSub (a b : ℚ) : ℚ := Rat.divInt (a.num * b.den - b.num * a.den) (a.den * b.den)

/-- `a * b` on `ℚ`, kernel-reducible (see `qMul_eq`). -/
def qMul (a b : ℚ) : ℚ := Rat.divInt (a.num * b.num) (a.den * b.den)

/-- `a / b` on `ℚ` (with the `x / 0 = 0` convention of `ℚ`),
kernel-reducible (see `qDiv_eq`). -/
def qDiv (a b : ℚ) : ℚ := Rat.divInt (a.num * b.den) (a.den * b.num)

/-- `a < b` on `ℚ` as a boolean, kernel-reducible (see `qLt_eq`). -/
def qLt (a b : ℚ) : Bool := a.num * b.den < b.num * a.den

/-- `a ^ n` on `ℚ`, kernel-reducible (see `qPowNat_eq`). -/
def qPowNat (a : ℚ) : ℕ → ℚ
  | 0 => 1
  | n + 1 => qMul (qPowNat a n) a

/-- `⌊q⌋`, kernel-reducible (see `qFloor_eq`): floor division of the
numerator by the (positive) denominator. -/
def qFloor (q : ℚ) : ℤ := Int.fdiv q.num q.den

/-- `|q|`, kernel-reducible. -/
def qAbs (q : ℚ) : ℚ := if qLt q 0 then -q else q

/-- `a ^ n` on `ℤ`, kernel-reducible. -/
def intPowNat (a : ℤ) : ℕ → ℤ
  | 0 => 1
  | n + 1 => intPowNat a n * a

/-- `a ^ z` on `ℚ` for an integer exponent (with the `0⁻¹ = 0` convention of
`ℚ`), kernel-reducible (see `qZpow_eq`). -/
def qZpow (a : ℚ) : ℤ → ℚ
  | .ofNat n => qPowNat a n
  | .negSucc n => qDiv 1 (qPowNat a (n + 1))

/-- `10^e` for an integer exponent `e`, as a rational. -/
def qpow10 : ℤ → ℚ
  | .ofNat n => qPowNat 10 n
  | .negSucc n => qDiv 1 (qPowNat 10 (n + 1))

/-- `⌊log10 n⌋` for `n ≥ 1` (i.e. one less than the number of base-10
digits), by structural recursion on a fuel bounded by `n` itself. -/
def natLog10F : ℕ → ℕ → ℕ
  | 0, _ => 0
  | f + 1, n => if n < 10 then 0 else natLog10F f (n / 10) + 1

/-- `⌊log10 n⌋` for `n ≥ 1`; `0` for `n = 0` (callers exclude it). -/
def natLog10 (n : ℕ) : ℕ := natLog10F n n

/-- The integer `e` with `10^e ≤ q < 10^(e+1)`, for `q > 0` (meaningless for
`q ≤ 0`, which callers exclude).  Computed from the digit counts of the
numerator and denominator, with a one-step correction. -/
def ilog10 (q : ℚ) : ℤ :=
  let la : ℤ := natLog10 q.num.natAbs
  let lb : ℤ := natLog10 q.den
  let e := la - lb
  if qLt q (qpow10 e) then e - 1 else e

/-- Round a rational to the nearest integer, ties to even
(`ROUND_HALF_EVEN`, the default `decimal` rounding). -/
def rndHalfEven (q : ℚ) : ℤ :=
  let f := qFloor q
  let r := qSub q (f : ℚ)
  if qLt r (qDiv 1 2) then f
  else if qLt (qDiv 1 2) r then f + 1
  else if f % 2 = 0 then f else f + 1

/-- Round `q` to `p` significant digits, half-even: the rounding every
`decimal` context arithmetic operation applies to its exact result. -/
def roundSig (p : ℕ) (q : ℚ) : ℚ :=
  if q = 0 then 0
  else
    let e := ilog10 (qAbs q)
    let s : ℤ := (p : ℤ) - 1 - e
    qMul (rndHalfEven (qMul q (qpow10 s)) : ℚ) (qpow10 (-s))

/-- `int(Decimal)`: truncation toward zero. -/
def ratTrunc (q : ℚ) : ℤ := Int.tdiv q.num q.den

/-- Accumulate a digit string into a natural number; `none` if some character
is not a decimal digit.  The empty list yields `0` (callers guard). -/
def digitsToNat (l : List Char) : Option ℕ :=
  l.foldl
    (fun acc c =>
      match acc with
      | none => none
      | some n => if c.isDigit then some (10 * n + (c.toNat - '0'.toNat)) else none)
    (some 0)

/-- The exact value of a decimal literal of the shape the tokeniser can
produce (optional `-` after `_`-replacement, digits and at most one `.`,
at least one digit); `none` models the `InvalidOperation` that
`create_decimal` raises on malformed input such as `"."` or `"1.2.3"`.
General `Decimal` syntax (exponents, `NaN`, `Infinity`) cannot reach
`create_decimal` through the tokeniser's `_?[0-9.]+` pattern and is not
modelled. -/
def decLitVal (l : List Char) : Option ℚ :=
  let neg : Bool := l.head? = some '-'
  let body := if neg then l.tail else l
  if 1 < body.count '.' then none
  else
    let ip := body.takeWhile (fun c => c ≠ '.')
    let fp := body.drop (ip.length + 1)
    if ip.length + fp.length = 0 then none
    else
      match digitsToNat ip, digitsToNat fp with
      | some i, some f =>
          let mag : ℚ := qAdd (i : ℚ) (qDiv (f : ℚ) (qPowNat 10 fp.length))
          some (if neg then -mag else mag)
      | _, _ => none

/-- `Context.create_decimal`: parse the literal and round it to the context
precision.  `none` = `InvalidOperation` (fatal). -/
def createDecimal (c : Ctx) (l : List Char) : Option ℚ :=
  (decLitVal l).map (roundSig c.prec)

/-- Python `int(str)`: optional sign then decimal digits.  The grouping
underscores and surrounding whitespace Python also accepts cannot arise in
the programs considered here and are not modelled. -/
def parseIntLit (l : List Char) : Option ℤ :=
  let (neg, body) :=
    match l with
    | '-' :: r => (true, r)
    | '+' :: r => (false, r)
    | r => (false, r)
  if body = [] then none
  else (digitsToNat body).map fun n => if neg then -(n : ℤ) else (n : ℤ)

/-- Python `int(value)` on a stack value: truncation for a `Decimal`,
string parsing for a text (`ValueError`, i.e. `none`, if malformed). -/
def pyInt : Value → Option ℤ
  | .num q => some (ratTrunc q)
  | .text t => parseIntLit t

/-- `sqrt` of a nonnegative rational, rounded to `p` significant digits:
models `Decimal.sqrt`.  Computed from `Nat.sqrt` with generous guard digits;
this agrees with the correctly rounded root except when the root lies within
the guard margin of a rounding boundary — no claim below exercises `v`. -/
def decSqrt (p : ℕ) (q : ℚ) : ℚ :=
  if q = 0 then 0
  else
    let e := ilog10 q
    let k : ℤ := (p : ℤ) + 8 + (e.natAbs : ℤ)
    let scaled := qMul q (qpow10 (2 * k))
    let root : ℚ := qMul (Nat.sqrt (qFloor scaled).toNat : ℚ) (qpow10 (-k))
    roundSig p root

/-- `Stack.push(*values)`: values are appended in argument order, so the LAST
argument ends up on top.  With the top-at-head representation this reverses
the argument list onto the stack. -/
def pushAll (vs : List Value) (s : List Value) : List Value :=
  vs.reverse ++ s

/-- `Stack.pop_many(num)`: pop `num` values one at a time, returning them in
pop order (most recently pushed first).  On underflow (`IndexError` from
`list.pop`), the pops already performed are NOT undone: the error carries the
remaining stack, which is empty, every available element having been popped. -/
def popMany : ℕ → List Value → Except (List Value) (List Value × List Value)
  | 0, s => .ok ([], s)
  | _ + 1, [] => .error []
  | n + 1, v :: s =>
      match popMany n s with
      | .ok (vs, rest) => .ok (v :: vs, rest)
      | .error rest => .error rest

/-- Execution error kinds.  `emptyStack` is the `EmptyStackError` that
`run_commands` raises when a handler hits `IndexError`; `fatal` stands for any
other exception a handler lets escape (these abort the run uncaught). -/
inductive ExecErr : Type where
  | emptyStack
  | fatal
deriving DecidableEq, Repr

/-- The state a handler sees: the stack contents (top first) and the CURRENT
thread-local decimal context (`decimal.getcontext()`), which inside
`run_commands` is the working copy installed by `localcontext`. -/
structure ExecSt : Type where
  vals : List Value
  ctx : Ctx
deriving DecidableEq, Repr

/-- Result of one handler invocation: the new state, or an error paired with
the state as the exception leaves it (mutations before the raise are kept). -/
abbrev HRes := Except (ExecErr × ExecSt) ExecSt

/-- `\s` handler: no-op. -/
def whitespace (_ : List Char) (st : ExecSt) : HRes := .ok st

/-- `#.*$` handler: no-op. -/
def comment (_ : List Char) (st : ExecSt) : HRes := .ok st

/-- `_?[0-9.]+` handler: `push(getcontext().create_decimal(text.replace('_', '-')))`. -/
def constant (text : List Char) (st : ExecSt) : HRes :=
  match createDecimal st.ctx (text.map fun ch => if ch = '_' then '-' else ch) with
  | some q => .ok { st with vals := .num q :: st.vals }
  | none => .error (.fatal, st)

/-- `\[[^]]+?\]` handler: `push(DecimalMultipliableString(text[1:-1]))`. -/
def string (text : List Char) (st : ExecSt) : HRes :=
  .ok { st with vals := .text (text.drop 1).dropLast :: st.vals }

/-- `[IO]` handler: `push(getcontext().radix())`, always `Decimal(10)`. -/
def get_radix (_ : List Char) (st : ExecSt) : HRes :=
  .ok { st with vals := .num 10 :: st.vals }

/-- `K` handler: `push(getcontext().prec)`. -/
def get_precision (_ : List Char) (st : ExecSt) : HRes :=
  .ok { st with vals := .num st.ctx.prec :: st.vals }

/-- `k` handler: `getcontext().prec = int(stack.pop())`.  A malformed text
operand (`ValueError` from `int`) or a precision outside `1 ≤ p ≤ maxPrec`
(`ValueError` from the `prec` setter) escapes uncaught. -/
def set_precision (_ : List Char) (st : ExecSt) : HRes :=
  match st.vals with
  | [] => .error (.emptyStack, st)
  | v :: rest =>
      match pyInt v with
      | none => .error (.fatal, { st with vals := rest })
      | some n =>
          if 1 ≤ n ∧ n ≤ (maxPrec : ℤ) then .ok { vals := rest, ctx := ⟨n.toNat⟩ }
          else .error (.fatal, { st with vals := rest })

/-- `f` handler: prints the stack to stdout, top first; no effect on the
state (output is outside the model). -/
def print_stack (_ : List Char) (st : ExecSt) : HRes := .ok st

/-- `r` handler: `push(*pop_many(2))` — the two values come back in pop order,
so they land swapped. -/
def swap (_ : List Char) (st : ExecSt) : HRes :=
  match popMany 2 st.vals with
  | .error rest => .error (.emptyStack, { st with vals := rest })
  | .ok (popped, rest) => .ok { st with vals := pushAll popped rest }

/-- One `deque` rotation step from `rotate`: the deque `l` holds the rotated
group bottom-to-top (top of stack rightmost, i.e. at the END of `l`).
`down` moves the leftmost element to the right end (`append(popleft())`);
otherwise the rightmost moves to the left end (`appendleft(pop())`).  On the
empty deque, `popleft`/`pop` raise `IndexError` (`none`). -/
def rotOnce (down : Bool) (l : List Value) : Option (List Value) :=
  if h : l = [] then none
  else some (if down then l.tail ++ [l.head h] else l.getLast h :: l.dropLast)

/-- `R` handler: pop the count `n` (via `int`), rotate the top
`min(|n|, depth)` elements one position using a `deque`.
`pop_many(m)` with `m ≤ depth` pops the top `m` elements (`s.take m`,
leaving `s.drop m`); `deque(reversed(...))` lists them bottom-to-top. -/
def rotate (_ : List Char) (st : ExecSt) : HRes :=
  match st.vals with
  | [] => .error (.emptyStack, st)
  | count :: s =>
      match pyInt count with
      | none => .error (.fatal, { st with vals := s })
      | some n =>
          let m := min n.natAbs s.length
          match rotOnce (decide (0 ≤ n)) (s.take m).reverse with
          | none => .error (.emptyStack, { st with vals := s.drop m })
          | some rotated => .ok { st with vals := rotated.reverse ++ s.drop m }

/-- `c` handler: `stack.clear()`. -/
def clear (_ : List Char) (st : ExecSt) : HRes :=
  .ok { st with vals := [] }

/-- `d` handler: `top = pop(); push(top, top)`. -/
def duplicate (_ : List Char) (st : ExecSt) : HRes :=
  match st.vals with
  | [] => .error (.emptyStack, st)
  | top :: rest => .ok { st with vals := top :: top :: rest }

/-- `z` handler: `push(len(stack))` — the depth before the push. -/
def stack_depth (_ : List Char) (st : ExecSt) : HRes :=
  .ok { st with vals := .num st.vals.length :: st.vals }

/-- `v` handler: `push(pop().sqrt())`.  A text operand has no `.sqrt`
(`AttributeError`); a negative number raises `InvalidOperation`. -/
def square_root (_ : List Char) (st : ExecSt) : HRes :=
  match st.vals with
  | [] => .error (.emptyStack, st)
  | .text _ :: rest => .error (.fatal, { st with vals := rest })
  | .num q :: rest =>
      if qLt q 0 then .error (.fatal, { st with vals := rest })
      else .ok { st with vals := .num (decSqrt st.ctx.prec q) :: rest }

/-- The five operators dispatched by `common_numerical`'s `ops` table. -/
inductive NumOp : Type where
  | add | sub | mul | div | pow
deriving DecidableEq, Repr

/-- `ops[cmd_text]`: which operator a matched text selects (`none` = `KeyError`). -/
def opOfText : List Char → Option NumOp
  | ['+'] => some .add
  | ['-'] => some .sub
  | ['*'] => some .mul
  | ['/'] => some .div
  | ['^'] => some .pow
  | _ => none

/-- Python `int(n) * str`: the text repeated `n` times (`0` times when the
count is negative). -/
def replicateText (n : ℕ) (s : List Char) : List Char :=
  (List.replicate n s).flatten

/-- The Python meaning of `a OP b` on two stack values (`a` = popped second
= left operand, `b` = popped first = right operand).  `none` models the
uncaught `TypeError`/`InvalidOperation`/`DivisionByZero` of the unsupported
combinations.  Number results are rounded to the context precision, as every
`decimal` context operation does.  `^` is modelled for integer exponents
(`Decimal**Decimal` is exactly computed, then rounded); fractional exponents
take an inexact-power path no claim exercises, left as `none`. -/
def pyBinOp (o : NumOp) (c : Ctx) (a b : Value) : Option Value :=
  match o, a, b with
  | .add, .num x, .num y => some (.num (roundSig c.prec (qAdd x y)))
  | .add, .text s, .text t => some (.text (s ++ t))
  | .sub, .num x, .num y => some (.num (roundSig c.prec (qSub x y)))
  | .mul, .num x, .num y => some (.num (roundSig c.prec (qMul x y)))
  | .mul, .text s, .num y => some (.text (replicateText (ratTrunc y).toNat s))
  | .mul, .num x, .text t => some (.text (replicateText (ratTrunc x).toNat t))
  | .div, .num x, .num y =>
      if y = 0 then none else some (.num (roundSig c.prec (qDiv x y)))
  | .pow, .num x, .num y =>
      if y.den = 1 then
        if x = 0 ∧ y.num ≤ 0 then none
        else some (.num (roundSig c.prec (qZpow x y.num)))
      else none
  | _, _, _ => none

/-- `[-+*/^]` handler: `push(flip(ops[cmd_text])(*pop_many(2)))`.  Python
evaluates `ops[cmd_text]` BEFORE popping (a `KeyError` fires first); then
`pop_many(2)` yields `(b, a)` in pop order and `flip` applies `a OP b`. -/
def common_numerical (text : List Char) (st : ExecSt) : HRes :=
  match opOfText text with
  | none => .error (.fatal, st)
  | some o =>
      match popMany 2 st.vals with
      | .error rest => .error (.emptyStack, { st with vals := rest })
      | .ok ([b, a], rest) =>
          match pyBinOp o st.ctx a b with
          | some v => .ok { st with vals := v :: rest }
          | none => .error (.fatal, { st with vals := rest })
      | .ok (_, rest) => .error (.fatal, { st with vals := rest })

/-- `%` handler: `denominator, numerator = pop_many(2)` (denominator popped
first), then `numerator % denominator`.  `Decimal.__mod__` is the remainder
of truncating division, sign of the dividend, computed exactly (an operand
needing more than `prec` quotient digits would raise; not modelled, as no
claim exercises `%`).  Text operands would hit Python `%`-formatting, also
unexercised; modelled as fatal. -/
def remainder (_ : List Char) (st : ExecSt) : HRes :=
  match popMany 2 st.vals with
  | .error rest => .error (.emptyStack, { st with vals := rest })
  | .ok ([denominator, numerator], rest) =>
      match numerator, denominator with
      | .num a, .num b =>
          if b = 0 then .error (.fatal, { st with vals := rest })
          else .ok { st with vals := .num (qSub a (qMul b (ratTrunc (qDiv a b) : ℚ))) :: rest }
      | _, _ => .error (.fatal, { st with vals := rest })
  | .ok (_, rest) => .error (.fatal, { st with vals := rest })

/-- `~` handler: `quotient, modulus = divmod(numerator, denominator)`;
`push(quotient, modulus)` leaves the remainder on top.  `Decimal` divmod is
truncating integer division plus the matching remainder. -/
def div_mod (_ : List Char) (st : ExecSt) : HRes :=
  match popMany 2 st.vals with
  | .error rest => .error (.emptyStack, { st with vals := rest })
  | .ok ([denominator, numerator], rest) =>
      match numerator, denominator with
      | .num a, .num b =>
          if b = 0 then .error (.fatal, { st with vals := rest })
          else
            let q0 : ℤ := ratTrunc (qDiv a b)
            .ok { st with vals := pushAll [.num q0, .num (qSub a (qMul b q0))] rest }
      | _, _ => .error (.fatal, { st with vals := rest })
  | .ok (_, rest) => .error (.fatal, { st with vals := rest })

/-- `|` handler: `modulus, exponent, base = pop_many(3)`;
`push(pow(base, exponent, modulus))`.  Three-argument `Decimal` pow demands
integral operands, a nonnegative exponent and a nonzero modulus, computing
the integer power reduced by a truncating remainder (sign conventions at
negative bases are unexercised by the claims). -/
def mod_exponentiation (_ : List Char) (st : ExecSt) : HRes :=
  match popMany 3 st.vals with
  | .error rest => .error (.emptyStack, { st with vals := rest })
  | .ok ([modulus, exponent, base], rest) =>
      match base, exponent, modulus with
      | .num x, .num y, .num m =>
          if x.den = 1 ∧ y.den = 1 ∧ m.den = 1 ∧ 0 ≤ y.num ∧ m.num ≠ 0 then
            .ok { st with vals := .num ((Int.tmod (intPowNat x.num y.num.toNat) m.num : ℤ) : ℚ) :: rest }
          else .error (.fatal, { st with vals := rest })
      | _, _, _ => .error (.fatal, { st with vals := rest })
  | .ok (_, rest) => .error (.fatal, { st with vals := rest })

/-- The registered command handlers, one constructor per `@register_command`
function in `dcparse.py`, in source order. -/
inductive Cmd : Type where
  | whitespace | comment | constant | string | get_radix | get_precision
  | set_precision | print_stack | swap | rotate | clear | duplicate
  | stack_depth | square_root | common_numerical | remainder | div_mod
  | mod_exponentiation
deriving DecidableEq, Repr

/-- Dispatch a command to its handler (the function bound in the registry). -/
def handlerOf : Cmd → List Char → ExecSt → HRes
  | .whitespace => whitespace
  | .comment => comment
  | .constant => constant
  | .string => string
  | .get_radix => get_radix
  | .get_precision => get_precision
  | .set_precision => set_precision
  | .print_stack => print_stack
  | .swap => swap
  | .rotate => rotate
  | .clear => clear
  | .duplicate => duplicate
  | .stack_depth => stack_depth
  | .square_root => square_root
  | .common_numerical => common_numerical
  | .remainder => remainder
  | .div_mod => div_mod
  | .mod_exponentiation => mod_exponentiation

/-- How many operands a handler pops before pushing anything: the number of
stack values it needs.  With fewer than this many values present, the
handler's pops hit `IndexError`. -/
def arity : Cmd → ℕ
  | .whitespace | .comment | .constant | .string | .get_radix
  | .get_precision | .print_stack | .clear | .stack_depth => 0
  | .set_precision | .rotate | .duplicate | .square_root => 1
  | .swap | .common_numerical | .remainder | .div_mod => 2
  | .mod_exponentiation => 3

/-- A compiled pattern, as used by `tokenise`: applied to the yet-unconsumed
suffix, it returns the length of the match at its start
(`regex.match(cmd_text[str_position:])` … `match.end()`), or `none`. -/
abbrev Matcher := List Char → Option ℕ

/-- A single-character pattern (`K`, `[IO]`, `[-+*/^]`, `\s`, …). -/
def matchChar (p : Char → Bool) : Matcher := fun s =>
  match s with
  | [] => none
  | c :: _ => if p c then some 1 else none

/-- Python `\s` (ASCII range; no input considered here contains the
additional Unicode whitespace `re` would also accept). -/
def isPySpace (c : Char) : Bool :=
  c = ' ' || c = '\t' || c = '\n' || c = '\r' || c = '\x0b' || c = '\x0c'

/-- `#.*$` under `re.MULTILINE`: a `#` and everything up to (excluding) the
next newline or the end of input. -/
def commentMatch : Matcher := fun s =>
  match s with
  | [] => none
  | c :: rest =>
      if c = '#' then some (1 + (rest.takeWhile (fun x => x ≠ '\n')).length)
      else none

/-- A character of the `[0-9.]` class. -/
def isConstChar (c : Char) : Bool := c.isDigit || c = '.'

/-- `_?[0-9.]+`, greedy: an optional `_` (kept only if at least one class
character follows — otherwise the regex backtracks and fails), then the
longest run of digits and dots, which must be nonempty. -/
def constantMatch : Matcher := fun s =>
  match s with
  | [] => none
  | c :: rest =>
      if c = '_' then
        let d := (rest.takeWhile isConstChar).length
        if d = 0 then none else some (1 + d)
      else
        let d := ((c :: rest).takeWhile isConstChar).length
        if d = 0 then none else some d

/-- `\[[^]]+?\]`, lazy: an opening `[`, at least one non-`]` character, then
the FIRST `]`.  Matches exactly when the first `]` after the bracket sits at
index `j ≥ 1` of the remainder; the match then spans `j + 2` characters. -/
def stringMatch : Matcher := fun s =>
  match s with
  | [] => none
  | c :: rest =>
      if c = '[' then
        match rest.findIdx? (fun x => x = ']') with
        | some j => if 1 ≤ j then some (j + 2) else none
        | none => none
      else none

/-- A parsed command token: the matched text (`m.group(0)`) and the handler
bound to the pattern. -/
abbrev Token := List Char × Cmd

/-- `CommandSequence._registered_commands`: the ordered `(pattern, handler)`
table, in the order the `@register_command` decorators run (top to bottom of
`dcparse.py`). -/
def registeredCommands : List (Matcher × Cmd) :=
  [(matchChar isPySpace, .whitespace),
   (commentMatch, .comment),
   (constantMatch, .constant),
   (stringMatch, .string),
   (matchChar (fun c => c = 'I' || c = 'O'), .get_radix),
   (matchChar (fun c => c = 'K'), .get_precision),
   (matchChar (fun c => c = 'k'), .set_precision),
   (matchChar (fun c => c = 'f'), .print_stack),
   (matchChar (fun c => c = 'r'), .swap),
   (matchChar (fun c => c = 'R'), .rotate),
   (matchChar (fun c => c = 'c'), .clear),
   (matchChar (fun c => c = 'd'), .duplicate),
   (matchChar (fun c => c = 'z'), .stack_depth),
   (matchChar (fun c => c = 'v'), .square_root),
   (matchChar (fun c => c = '-' || c = '+' || c = '*' || c = '/' || c = '^'), .common_numerical),
   (matchChar (fun c => c = '%'), .remainder),
   (matchChar (fun c => c = '~'), .div_mod),
   (matchChar (fun c => c = '|'), .mod_exponentiation)]

/-- The inner `for regex, func in cls._registered_commands` loop: try each
pattern in registration order against the current suffix and keep the FIRST
success (match length and handler); `none` when no pattern matches. -/
def firstMatch : List (Matcher × Cmd) → List Char → Option (ℕ × Cmd)
  | [], _ => none
  | (m, cmd) :: rest, s =>
      match m s with
      | some n => some (n, cmd)
      | none => firstMatch rest s

/-- `CommandSequence.tokenise`, fuel-indexed so that it reduces by
structural recursion: scan left to right; at each position take the first
registered pattern matching the unconsumed suffix, emit the matched text and
handler, and advance by the match length; raise `UnknownCommandError` with
`str_position` (the number of characters already consumed) when nothing
matches.  One unit of fuel is spent per emitted token; since every
registered pattern consumes at least one character (`registered_pos`),
`fuel = length of the text` always suffices (`tokeniseF_fuel`), and the
out-of-fuel branch is unreachable from `tokenise`. -/
def tokeniseF : ℕ → ℕ → List Char → Except ℕ (List Token)
  | _, _, [] => .ok []
  | 0, consumed, _ :: _ => .error consumed
  | fuel + 1, consumed, c :: cs =>
      match firstMatch registeredCommands (c :: cs) with
      | none => .error consumed
      | some (n, cmd) =>
          match tokeniseF fuel (consumed + n) ((c :: cs).drop n) with
          | .error e => .error e
          | .ok toks => .ok (((c :: cs).take n, cmd) :: toks)

/-- Tokenising a suffix, `consumed` characters already scanned. -/
def tokeniseFrom (consumed : ℕ) (s : List Char) : Except ℕ (List Token) :=
  tokeniseF s.length consumed s

/-- `CommandSequence.tokenise` on a whole input text. -/
def tokenise (s : List Char) : Except ℕ (List Token) :=
  tokeniseFrom 0 s

instance {α β : Type} [DecidableEq α] [DecidableEq β] :
    DecidableEq (Except α β) := fun
  | .error a, .error b => decidable_of_iff (a = b) (by simp)
  | .error _, .ok _ => .isFalse (by simp)
  | .ok _, .error _ => .isFalse (by simp)
  | .ok a, .ok b => decidable_of_iff (a = b) (by simp)

/-- The inner loop of `Stack.run_commands`: execute the parsed tokens in
order against the state.  A handler success continues with the next token; a
handler error (an `EmptyStackError` re-raised from `IndexError`, or any
other exception propagating uncaught) halts token consumption immediately,
leaving the state exactly as the failing handler left it — no rollback. -/
def runAux : List Token → ExecSt → Option ExecErr × ExecSt
  | [], st => (none, st)
  | (text, cmd) :: rest, st =>
      match handlerOf cmd text st with
      | .ok st' => runAux rest st'
      | .error (e, st') => (some e, st')

/-- A `Stack` object: its contents (top first) and its own `_context`.  The
context is installed (as a working copy) only while `run_commands` runs. -/
structure Stack : Type where
  vals : List Value
  context : Ctx
deriving DecidableEq, Repr

/-- The error surface of running one text: parse-time `UnknownCommandError`
(carrying `str_position`, the number of characters consumed before the first
failure) or run-time `EmptyStackError`, plus uncaught fatal exceptions. -/
inductive Err : Type where
  | unknownCommand (strPosition : ℕ)
  | emptyStack
  | fatal
deriving DecidableEq, Repr

/-- An execution error as it escapes `run_commands`. -/
def ExecErr.toErr : ExecErr → Err
  | .emptyStack => .emptyStack
  | .fatal => .fatal

/-- `Stack.run_commands`: `with decimal.localcontext(self._context)` saves
the ambient thread context, installs a COPY of the stack's `_context` as the
current context for the body, and restores the saved ambient context when
the block exits — normally or by exception.  Returns the handler outcome,
the stack object after the run (its own `_context` field is never
reassigned), and the ambient context after the run. -/
def runTop (ambient : Ctx) (stack : Stack) (prog : List Token) :
    Option ExecErr × Stack × Ctx :=
  let saved := ambient
  let working := stack.context
  let res := runAux prog ⟨stack.vals, working⟩
  (res.1, ⟨res.2.vals, stack.context⟩, saved)

/-- Parse a text into a `CommandSequence`, then run it on a stack — the
composition both `main` and the UI perform.  `CommandSequence.__init__`
raises `UnknownCommandError` during construction, before any handler can
run, so on a parse failure the stack and the ambient context are returned
untouched. -/
def runText (ambient : Ctx) (stack : Stack) (text : List Char) :
    Option Err × Stack × Ctx :=
  match tokenise text with
  | .error n => (some (.unknownCommand n), stack, ambient)
  | .ok toks =>
      let res := runTop ambient stack toks
      (res.1.map ExecErr.toErr, res.2)

/-! ## Supporting lemmas -/

/-- `qAdd` is addition on `ℚ`. -/
theorem qAdd_eq (a b : ℚ) : qAdd a b = a + b := by
  have ha : (a.den : ℚ) ≠ 0 := Nat.cast_ne_zero.mpr a.den_nz
  have hb : (b.den : ℚ) ≠ 0 := Nat.cast_ne_zero.mpr b.den_nz
  rw [qAdd, Rat.divInt_eq_div]
  push_cast
  conv_rhs => rw [← Rat.num_div_den a, ← Rat.num_div_den b]
  field_simp

/-- `qSub` is subtraction on `ℚ`. -/
theorem qSub_eq (a b : ℚ) : qSub a b = a - b := by
  have ha : (a.den : ℚ) ≠ 0 := Nat.cast_ne_zero.mpr a.den_nz
  have hb : (b.den : ℚ) ≠ 0 := Nat.cast_ne_zero.mpr b.den_nz
  rw [qSub, Rat.divInt_eq_div]
  push_cast
  conv_rhs => rw [← Rat.num_div_den a, ← Rat.num_div_den b]
  field_simp
  ring

/-- `qMul` is multiplication on `ℚ`. -/
theorem qMul_eq (a b : ℚ) : qMul a b = a * b := by
  have ha : (a.den : ℚ) ≠ 0 := Nat.cast_ne_zero.mpr a.den_nz
  have hb : (b.den : ℚ) ≠ 0 := Nat.cast_ne_zero.mpr b.den_nz
  rw [qMul, Rat.divInt_eq_div]
  push_cast
  conv_rhs => rw [← Rat.num_div_den a, ← Rat.num_div_den b]
  field_simp

/-- `qDiv` is division on `ℚ` (both send division by zero to `0`). -/
theorem qDiv_eq (a b : ℚ) : qDiv a b = a / b := by
  by_cases hb : b = 0
  · subst hb
    simp [qDiv]
  · have ha : (a.den : ℚ) ≠ 0 := Nat.cast_ne_zero.mpr a.den_nz
    have hbn : (b.num : ℚ) ≠ 0 := Int.cast_ne_zero.mpr (Rat.num_ne_zero.mpr hb)
    have hbd : (b.den : ℚ) ≠ 0 := Nat.cast_ne_zero.mpr b.den_nz
    rw [qDiv, Rat.divInt_eq_div]
    push_cast
    conv_rhs => rw [← Rat.num_div_den a, ← Rat.num_div_den b]
    rw [div_div_div_eq]

/-- `qLt` decides the order on `ℚ`. -/
theorem qLt_eq (a b : ℚ) : qLt a b = true ↔ a < b := by
  have ha : (0 : ℚ) < a.den := by exact_mod_cast a.pos
  have hb : (0 : ℚ) < b.den := by exact_mod_cast b.pos
  rw [qLt, decide_eq_true_iff]
  rw [show (a < b) ↔ ((a.num : ℚ) / a.den < (b.num : ℚ) / b.den) by
        rw [Rat.num_div_den, Rat.num_div_den]]
  rw [div_lt_div_iff₀ ha hb]
  exact_mod_cast Iff.rfl

/-- `qPowNat` is the monoid power on `ℚ`. -/
theorem qPowNat_eq (a : ℚ) (n : ℕ) : qPowNat a n = a ^ n := by
  induction n with
  | zero => rw [qPowNat, pow_zero]
  | succ n ih => rw [qPowNat, qMul_eq, ih, pow_succ]

/-- `qZpow` is the integer power on `ℚ`. -/
theorem qZpow_eq (a : ℚ) (z : ℤ) : qZpow a z = a ^ z := by
  cases z with
  | ofNat n => rw [qZpow, qPowNat_eq, Int.ofNat_eq_coe, zpow_natCast]
  | negSucc n => rw [qZpow, qDiv_eq, qPowNat_eq, one_div, zpow_negSucc]

/-- `qpow10 e` is `10 ^ e`. -/
theorem qpow10_eq (e : ℤ) : qpow10 e = (10 : ℚ) ^ e := by
  cases e with
  | ofNat n => rw [qpow10, qPowNat_eq, Int.ofNat_eq_coe, zpow_natCast]
  | negSucc n => rw [qpow10, qDiv_eq, qPowNat_eq, one_div, zpow_negSucc]

/-- `qFloor` is the floor function on `ℚ`. -/
theorem qFloor_eq (q : ℚ) : qFloor q = ⌊q⌋ := by
  rw [qFloor, Int.fdiv_eq_ediv _ (by exact_mod_cast Nat.zero_le q.den), Rat.floor_def]

/-- `qAbs` is the absolute value on `ℚ`. -/
theorem qAbs_eq (q : ℚ) : qAbs q = |q| := by
  rw [qAbs]
  by_cases h : q < 0
  · rw [if_pos ((qLt_eq q 0).mpr h), abs_of_neg h]
  · rw [if_neg fun hc => h ((qLt_eq q 0).mp hc), abs_of_nonneg (not_lt.mp h)]

/-- `int(Decimal)` of an integer is that integer. -/
theorem ratTrunc_intCast (n : ℤ) : ratTrunc (n : ℚ) = n := by
  rw [ratTrunc, Rat.num_intCast, Rat.den_intCast]
  exact Int.tdiv_one n

/-- `int(Decimal)` of a natural number is that number. -/
theorem ratTrunc_natCast (n : ℕ) : ratTrunc (n : ℚ) = n := by
  rw [show ((n : ℕ) : ℚ) = ((n : ℤ) : ℚ) by push_cast; rfl]
  exact ratTrunc_intCast n

/-- `pop_many(n)` on a stack of at least `n` values pops exactly the top `n`,
in pop order, leaving the rest. -/
theorem popMany_ok :
    ∀ (n : ℕ) (s : List Value), n ≤ s.length →
      popMany n s = .ok (s.take n, s.drop n) := by
  intro n
  induction n with
  | zero => intro s _; rfl
  | succ n ih =>
      intro s hs
      cases s with
      | nil => simp at hs
      | cons v s =>
          have := ih s (by simpa using hs)
          simp [popMany, this]

/-- `pop_many(n)` on a stack of fewer than `n` values pops everything it can
and then raises, leaving the stack empty. -/
theorem popMany_err :
    ∀ (n : ℕ) (s : List Value), s.length < n → popMany n s = .error [] := by
  intro n
  induction n with
  | zero => intro s hs; simp at hs
  | succ n ih =>
      intro s hs
      cases s with
      | nil => rfl
      | cons v s =>
          have := ih s (by simpa using hs)
          simp [popMany, this]

/-- Rotating the deque toward the bottom moves its leftmost (deepest)
element to the right end. -/
theorem rotOnce_down (l : List Value) (h : l ≠ []) :
    rotOnce true l = some (l.tail ++ [l.head h]) := by
  rw [rotOnce, dif_neg h, if_pos rfl]

/-- Rotating the deque toward the top moves its rightmost (top) element to
the left end. -/
theorem rotOnce_up (l : List Value) (h : l ≠ []) :
    rotOnce false l = some (l.getLast h :: l.dropLast) := by
  rw [rotOnce, dif_neg h]
  simp

/-- The two deque rotations are mutually inverse (downward then upward). -/
theorem rotOnce_up_down (l : List Value) (h : l ≠ []) :
    rotOnce false (l.tail ++ [l.head h]) = some l := by
  have hne : l.tail ++ [l.head h] ≠ [] := by simp
  rw [rotOnce_up _ hne]
  rw [List.getLast_concat, List.dropLast_concat, List.head_cons_tail]

/-- The two deque rotations are mutually inverse (upward then downward). -/
theorem rotOnce_down_up (l : List Value) (h : l ≠ []) :
    rotOnce true (l.getLast h :: l.dropLast) = some l := by
  have hne : l.getLast h :: l.dropLast ≠ [] := by simp
  rw [rotOnce_down _ hne]
  simp only [List.tail_cons, List.head_cons]
  rw [List.dropLast_concat_getLast]

/-- `firstMatch` fails exactly when every registered pattern fails. -/
theorem firstMatch_none_iff (regs : List (Matcher × Cmd)) (s : List Char) :
    firstMatch regs s = none ↔ ∀ e ∈ regs, e.1 s = none := by
  induction regs with
  | nil => simp [firstMatch]
  | cons e rest ih =>
      obtain ⟨m, c0⟩ := e
      simp only [firstMatch]
      rcases he : m s with _ | k
      · show firstMatch rest s = none ↔ _
        simp only [List.forall_mem_cons]
        rw [← ih]
        constructor
        · intro h; exact ⟨he, h⟩
        · intro h; exact h.2
      · show some (k, c0) = none ↔ _
        constructor
        · intro h; cases h
        · intro h
          have h0 : (m, c0).1 s = none := h (m, c0) (List.mem_cons_self _ _)
          rw [show (m, c0).1 = m from rfl, he] at h0
          cases h0

/-- First match wins: `firstMatch` returns `(n, cmd)` exactly when SOME
registry entry at an index `i` matches with length `n` and handler `cmd`
while EVERY entry registered before it (index `j < i`) fails — the selected
pattern is the first registered one that matches, regardless of what later
patterns would do. -/
theorem firstMatch_least_iff (regs : List (Matcher × Cmd)) (s : List Char)
    (n : ℕ) (cmd : Cmd) :
    firstMatch regs s = some (n, cmd) ↔
      ∃ (i : ℕ) (h : i < regs.length),
        (regs.get ⟨i, h⟩).1 s = some n ∧ (regs.get ⟨i, h⟩).2 = cmd ∧
        ∀ (j : ℕ) (hj : j < regs.length), j < i → (regs.get ⟨j, hj⟩).1 s = none := by
  induction regs with
  | nil =>
      simp only [firstMatch, List.length_nil]
      constructor
      · intro h; cases h
      · rintro ⟨i, hi, -⟩; omega
  | cons e rest ih =>
      obtain ⟨m, c0⟩ := e
      simp only [firstMatch]
      rcases he : m s with _ | k
      · show firstMatch rest s = some (n, cmd) ↔ _
        rw [ih]
        constructor
        · rintro ⟨i, hi, hm, hc, hleast⟩
          refine ⟨i + 1, by simpa using Nat.succ_lt_succ hi, by simpa using hm,
            by simpa using hc, ?_⟩
          intro j hj hji
          cases j with
          | zero => simpa using he
          | succ j =>
              have hj' : j < rest.length := by simpa using hj
              have := hleast j hj' (by omega)
              simpa using this
        · rintro ⟨i, hi, hm, hc, hleast⟩
          cases i with
          | zero =>
              simp only [List.get_eq_getElem, List.getElem_cons_zero] at hm
              rw [he] at hm
              cases hm
          | succ i =>
              have hi' : i < rest.length := by simpa using hi
              refine ⟨i, hi', by simpa using hm, by simpa using hc, ?_⟩
              intro j hj hji
              have := hleast (j + 1) (by simpa using Nat.succ_lt_succ hj) (by omega)
              simpa using this
      · show some (k, c0) = some (n, cmd) ↔ _
        constructor
        · intro h
          obtain ⟨rfl, rfl⟩ : k = n ∧ c0 = cmd := by
            cases h; exact ⟨rfl, rfl⟩
          exact ⟨0, by simp, by simpa using he, by simp, fun j hj hj0 => by omega⟩
        · rintro ⟨i, hi, hm, hc, hleast⟩
          cases i with
          | zero =>
              simp only [List.get_eq_getElem, List.getElem_cons_zero] at hm hc
              rw [he] at hm
              obtain rfl : k = n := by cases hm; rfl
              obtain rfl : c0 = cmd := hc
              rfl
          | succ i =>
              have h0 := hleast 0 (by simp) (by omega)
              simp only [List.get_eq_getElem, List.getElem_cons_zero] at h0
              rw [he] at h0
              cases h0

/-- Every registered pattern consumes at least one character when it
matches (so `tokenise` always advances). -/
theorem registered_pos :
    ∀ e ∈ registeredCommands, ∀ s n, e.1 s = some n → 1 ≤ n := by
  have hchar : ∀ (p : Char → Bool) s n, matchChar p s = some n → 1 ≤ n := by
    intro p s n h
    cases s with
    | nil => simp [matchChar] at h
    | cons c cs =>
        by_cases hp : p c
        · simp [matchChar, hp] at h
          omega
        · simp [matchChar, hp] at h
  intro e he s n h
  simp only [registeredCommands, List.mem_cons, List.not_mem_nil, or_false] at he
  rcases he with rfl|rfl|rfl|rfl|rfl|rfl|rfl|rfl|rfl|rfl|rfl|rfl|rfl|rfl|rfl|rfl|rfl|rfl
  · exact hchar _ _ _ h
  · cases s with
    | nil => simp [commentMatch] at h
    | cons c cs =>
        by_cases hc : c = '#'
        · simp [commentMatch, hc] at h
          omega
        · simp [commentMatch, hc] at h
  · cases s with
    | nil => simp [constantMatch] at h
    | cons c cs =>
        by_cases hc : c = '_' <;>
        · simp only [constantMatch, hc, if_true, if_false] at h
          split at h
          · simp at h
          · simp only [Option.some.injEq] at h
            omega
  · cases s with
    | nil => simp [stringMatch] at h
    | cons c cs =>
        by_cases hc : c = '['
        · simp only [stringMatch, hc, if_true] at h
          split at h
          · split at h
            · simp only [Option.some.injEq] at h
              omega
            · simp at h
          · simp at h
        · simp [stringMatch, hc] at h
  all_goals exact hchar _ _ _ h


/-- `takeWhile` never returns more than the input. -/
theorem length_takeWhile_le (p : Char → Bool) (l : List Char) :
    (l.takeWhile p).length ≤ l.length := by
  induction l with
  | nil => simp
  | cons c cs ih =>
      by_cases h : p c <;> simp [List.takeWhile_cons, h]
      omega

/-- Every registered pattern matches at most the whole suffix, so the
matched text `s.take n` really has `n` characters. -/
theorem registered_le :
    ∀ e ∈ registeredCommands, ∀ s n, e.1 s = some n → n ≤ s.length := by
  have hchar : ∀ (p : Char → Bool) s n, matchChar p s = some n → n ≤ s.length := by
    intro p s n h
    cases s with
    | nil => simp [matchChar] at h
    | cons c cs =>
        by_cases hp : p c
        · simp only [matchChar, hp, if_true, Option.some.injEq] at h
          simp [← h]
        · simp [matchChar, hp] at h
  intro e he s n h
  simp only [registeredCommands, List.mem_cons, List.not_mem_nil, or_false] at he
  rcases he with rfl|rfl|rfl|rfl|rfl|rfl|rfl|rfl|rfl|rfl|rfl|rfl|rfl|rfl|rfl|rfl|rfl|rfl
  · exact hchar _ _ _ h
  · cases s with
    | nil => simp [commentMatch] at h
    | cons c cs =>
        by_cases hb : c = '#'
        · simp only [commentMatch, hb, if_true, Option.some.injEq] at h
          have := length_takeWhile_le (fun x => decide (x ≠ '\n')) cs
          simp only [List.length_cons, ← h]
          omega
        · simp [commentMatch, hb] at h
  · cases s with
    | nil => simp [constantMatch] at h
    | cons c cs =>
        by_cases hb : c = '_' <;>
          simp only [constantMatch, hb, if_true, if_false] at h <;>
          split at h
        · cases h
        · have := length_takeWhile_le isConstChar cs
          simp only [Option.some.injEq] at h
          simp only [List.length_cons, ← h]
          omega
        · cases h
        · have := length_takeWhile_le isConstChar (c :: cs)
          simp only [Option.some.injEq] at h
          omega
  · cases s with
    | nil => simp [stringMatch] at h
    | cons c cs =>
        by_cases hb : c = '['
        · simp only [stringMatch, hb, if_true] at h
          rcases hf : cs.findIdx? (fun x => x = ']') with _ | j <;> rw [hf] at h
          · cases h
          · have hj : j < cs.length :=
              (List.findIdx?_eq_some_iff_findIdx_eq.mp hf).1
            by_cases h1 : 1 ≤ j
            · simp only [if_pos h1, Option.some.injEq] at h
              simp only [List.length_cons, ← h]
              omega
            · simp only [if_neg h1] at h
              cases h
        · simp [stringMatch, hb] at h
  all_goals exact hchar _ _ _ h

/-- The first successful pattern consumes at least one character. -/
theorem firstMatch_pos {s : List Char} {n : ℕ} {cmd : Cmd}
    (h : firstMatch registeredCommands s = some (n, cmd)) : 1 ≤ n := by
  have aux : ∀ (regs : List (Matcher × Cmd)),
      (∀ e ∈ regs, ∀ s n, e.1 s = some n → 1 ≤ n) →
      ∀ s n cmd, firstMatch regs s = some (n, cmd) → 1 ≤ n := by
    intro regs hregs
    induction regs with
    | nil => intro s n cmd h; simp [firstMatch] at h
    | cons e rest ih =>
        obtain ⟨m, c0⟩ := e
        intro s n cmd h
        simp only [firstMatch] at h
        rcases he : m s with _ | k <;> rw [he] at h
        · have hm : ∀ x ∈ rest, ∀ s n, x.1 s = some n → 1 ≤ n :=
            fun x hx => hregs x (List.mem_cons_of_mem _ hx)
          exact ih hm s n cmd h
        · simp only [Option.some.injEq, Prod.mk.injEq] at h
          have hk : (m, c0).1 s = some n := by
            show m s = some n
            rw [he, h.1]
          exact hregs (m, c0) (List.mem_cons_self _ _) s n hk
  exact aux registeredCommands registered_pos s n cmd h


/-- The fuel argument is irrelevant once it dominates the text length. -/
theorem tokeniseF_fuel :
    ∀ (fuel fuel' consumed : ℕ) (s : List Char),
      s.length ≤ fuel → s.length ≤ fuel' →
      tokeniseF fuel consumed s = tokeniseF fuel' consumed s := by
  intro fuel
  induction fuel with
  | zero =>
      intro fuel' consumed s hs hs'
      cases s with
      | nil => cases fuel' <;> rfl
      | cons c cs => simp at hs
  | succ f ih =>
      intro fuel' consumed s hs hs'
      cases s with
      | nil => cases fuel' <;> rfl
      | cons c cs =>
          cases fuel' with
          | zero => simp at hs'
          | succ f' =>
              show (match firstMatch registeredCommands (c :: cs) with
                    | none => Except.error consumed
                    | some (n, cmd) =>
                        match tokeniseF f (consumed + n) ((c :: cs).drop n) with
                        | .error e => Except.error e
                        | .ok toks => Except.ok (((c :: cs).take n, cmd) :: toks)) = _
              rcases hm : firstMatch registeredCommands (c :: cs) with _ | ⟨n, cmd⟩
              · simp [tokeniseF, hm]
              · have hn := firstMatch_pos hm
                have hd : ((c :: cs).drop n).length ≤ f := by
                  simp only [List.length_drop, List.length_cons]
                  simp only [List.length_cons] at hs
                  omega
                have hd' : ((c :: cs).drop n).length ≤ f' := by
                  simp only [List.length_drop, List.length_cons]
                  simp only [List.length_cons] at hs'
                  omega
                simp only [tokeniseF, hm]
                rw [ih f' (consumed + n) _ hd hd']


/-- Tokenisation step on a nonempty suffix: first match wins, the offset
advances by the matched length. -/
theorem tokeniseFrom_cons (consumed : ℕ) (s : List Char) (hs : s ≠ []) :
    tokeniseFrom consumed s =
      match firstMatch registeredCommands s with
      | none => .error consumed
      | some (n, cmd) =>
          match tokeniseFrom (consumed + n) (s.drop n) with
          | .error e => .error e
          | .ok toks => .ok ((s.take n, cmd) :: toks) := by
  cases s with
  | nil => exact absurd rfl hs
  | cons c cs =>
      show tokeniseF (cs.length + 1) consumed (c :: cs) = _
      rcases hm : firstMatch registeredCommands (c :: cs) with _ | ⟨n, cmd⟩
      · simp [tokeniseF, hm]
      · have hn := firstMatch_pos hm
        simp only [tokeniseF, hm]
        rw [tokeniseF_fuel cs.length ((c :: cs).drop n).length (consumed + n)
              ((c :: cs).drop n) (by simp; omega) le_rfl]
        rfl



/-- Evaluating the `R` handler on an integer count `n`: pop the count, take
the top `min |n| depth` values as the deque (bottom-to-top), rotate once,
push the result back. -/
theorem rotate_run (n : ℤ) (s : List Value) (c : Ctx) (t : List Char)
    (rotated : List Value)
    (h : rotOnce (decide (0 ≤ n)) ((s.take (min n.natAbs s.length)).reverse)
          = some rotated) :
    rotate t ⟨.num (n : ℚ) :: s, c⟩
      = .ok ⟨rotated.reverse ++ s.drop (min n.natAbs s.length), c⟩ := by
  have hint : pyInt (Value.num ((n : ℤ) : ℚ)) = some n := by
    simp [pyInt, ratTrunc_intCast]
  simp only [rotate, hint, h]

/-! ## Claim theorems -/

/-- **C3** (code behaviour at the failing input): tokenising `"0 ]"` (length
3) consumes 2 characters (`0` and a space) and then fails on `]`, which no
registered pattern matches.  The `UnknownCommandError` value the code
produces is `2` — `str_position`, the number of characters consumed, i.e.
the offset from the START of the input — whereas the claim (and the
`CommandSequence.__init__` docstring, which says the argument is the
unconsumed suffix) calls for the length of the remaining suffix `"]"`,
namely `1 ≠ 2`. -/
theorem c3_error_value_is_offset_from_start :
    tokenise "0 ]".toList = .error 2 ∧
    "0 ]".toList.length - 2 = 1 ∧ (2 : ℕ) ≠ 1 :=
  ⟨by decide, by decide, by decide⟩

/-- **C5**: parsing completes before execution begins.  Whenever
tokenisation fails, the parse-then-run composition reports
`UnknownCommandError` (with the code's offset value), no handler runs, the
stack object is returned exactly as it was, and the ambient context is
untouched. -/
theorem c5_parse_failure_no_execution :
    ∀ (text : List Char) (g : Ctx) (st : Stack) (n : ℕ),
      tokenise text = .error n →
      runText g st text = (some (.unknownCommand n), st, g) := by
  intro text g st n h
  simp [runText, h]

/-- Witness for `c5_parse_failure_no_execution` at the concrete failing
input `"]"` and a nonempty stack. -/
theorem c5_witness :
    tokenise "]".toList = .error 0 ∧
    runText ⟨3⟩ ⟨[.num 5], ⟨7⟩⟩ "]".toList
      = (some (.unknownCommand 0), ⟨[.num 5], ⟨7⟩⟩, ⟨3⟩) :=
  ⟨by decide, c5_parse_failure_no_execution "]".toList ⟨3⟩ ⟨[.num 5], ⟨7⟩⟩ 0 (by decide)⟩

/-- **C7**: `with decimal.localcontext(self._context)` scoping.  For EVERY
program (so on success and on every failure alike), after `run_commands`
returns, the ambient context equals what it was before the run, and the
stack's own stored context is also unchanged.  Concretely, running `"5 k"`
(which sets the working precision to 5 mid-run) from any ambient context `g`
returns stack and ambient with precision 28 and `g` intact — the run's
precision change is not observable outside the run. -/
theorem c7_context_restored_on_every_exit :
    (∀ (g : Ctx) (stack : Stack) (prog : List Token),
        (runTop g stack prog).2.2 = g ∧
        (runTop g stack prog).2.1.context = stack.context) ∧
    ∀ g : Ctx, runText g ⟨[], ⟨28⟩⟩ "5 k".toList = (none, ⟨[], ⟨28⟩⟩, g) := by
  constructor
  · intro g stack prog
    exact ⟨rfl, rfl⟩
  · intro g
    have htok : tokenise ['5', ' ', 'k']
        = .ok [(['5'], Cmd.constant), ([' '], Cmd.whitespace), (['k'], Cmd.set_precision)] := by
      decide
    have hrun : runAux
        [(['5'], Cmd.constant), ([' '], Cmd.whitespace), (['k'], Cmd.set_precision)]
        ⟨[], ⟨28⟩⟩ = (none, ⟨[], ⟨5⟩⟩) := by decide
    show runText g ⟨[], ⟨28⟩⟩ ['5', ' ', 'k'] = _
    simp [runText, htok, runTop, hrun]

/-- **C8**: LIFO discipline.  `push(*vs)` appends the values in argument
order, and popping them all (`pop_many`, which performs `vs.length`
successive `pop()` calls) returns exactly the pushed `Value`s — the same
terms, no coercion — in reverse push order, leaving whatever was below
untouched. -/
theorem c8_pop_returns_pushes_reversed :
    ∀ (vs acc : List Value),
      popMany vs.length (pushAll vs acc) = .ok (vs.reverse, acc) := by
  intro vs acc
  rw [pushAll]
  have hlen : vs.length ≤ (vs.reverse ++ acc).length := by simp
  rw [popMany_ok _ _ hlen]
  have h1 : (vs.reverse ++ acc).take vs.length = vs.reverse := by
    rw [← List.length_reverse vs]
    exact List.take_left _ _
  have h2 : (vs.reverse ++ acc).drop vs.length = acc := by
    rw [← List.length_reverse vs]
    exact List.drop_left _ _
  rw [h1, h2]

/-- **C2**: the tokeniser scans left to right, trying the registered
patterns in registration order at each offset.  Conjuncts: (1) for ANY
registry, the inner loop returns `(n, cmd)` exactly when some entry at index
`i` matches with length `n` and handler `cmd` and every earlier entry fails
— first match wins, independent of whether a later pattern would match (or
match longer); (2) an exhausted text yields the empty token list; (3) on a
successful match the matched text is the next `n` characters, and the scan
continues `n` characters further along with `consumed + n`; (4) when no
pattern matches, scanning fails immediately. -/
theorem c2_scan_order_first_match_wins :
    (∀ (regs : List (Matcher × Cmd)) (s : List Char) (n : ℕ) (cmd : Cmd),
        firstMatch regs s = some (n, cmd) ↔
          ∃ (i : ℕ) (h : i < regs.length),
            (regs.get ⟨i, h⟩).1 s = some n ∧ (regs.get ⟨i, h⟩).2 = cmd ∧
            ∀ (j : ℕ) (hj : j < regs.length), j < i → (regs.get ⟨j, hj⟩).1 s = none) ∧
    (∀ consumed : ℕ, tokeniseFrom consumed [] = .ok []) ∧
    (∀ (consumed : ℕ) (s : List Char) (n : ℕ) (cmd : Cmd),
        s ≠ [] → firstMatch registeredCommands s = some (n, cmd) →
        (s.take n).length = n ∧
        tokeniseFrom consumed s
          = (tokeniseFrom (consumed + n) (s.drop n)).map
              (fun toks => (s.take n, cmd) :: toks)) ∧
    (∀ (consumed : ℕ) (s : List Char),
        s ≠ [] → firstMatch registeredCommands s = none →
        tokeniseFrom consumed s = .error consumed) := by
  refine ⟨firstMatch_least_iff, fun _ => rfl, ?_, ?_⟩
  · intro consumed s n cmd hs hm
    have hn_le : n ≤ s.length := by
      obtain ⟨i, hi, hmi, -, -⟩ := (firstMatch_least_iff _ _ _ _).mp hm
      exact registered_le _ (List.get_mem registeredCommands i hi) s n hmi
    refine ⟨by simp [List.length_take]; omega, ?_⟩
    rw [tokeniseFrom_cons consumed s hs]
    rw [hm]
    show (match tokeniseFrom (consumed + n) (s.drop n) with
          | .error e => Except.error e
          | .ok toks => Except.ok ((s.take n, cmd) :: toks)) = _
    cases h : tokeniseFrom (consumed + n) (s.drop n) <;> simp [Except.map]
  · intro consumed s hs hm
    rw [tokeniseFrom_cons consumed s hs, hm]

/-- Witness for `c2_scan_order_first_match_wins`: tokenising from `"Kz"`
emits the token `('K', get_precision)` and continues at offset `+1`. -/
theorem c2_witness :
    tokeniseFrom 0 ['K', 'z']
      = (tokeniseFrom 1 ['z']).map
          (fun toks => (['K'], Cmd.get_precision) :: toks) := by
  have h := (c2_scan_order_first_match_wins.2.2.1 0 ['K', 'z'] 1 Cmd.get_precision
    (by decide) (by decide)).2
  exact h

/-- **C10**: the empty text literal cannot be written.  (1) the `\[[^]]+?\]`
pattern only ever matches at least three characters (one bracket pair and a
nonempty body); (2) no registered pattern matches a suffix starting
`"[]"`; (3) hence the scan fails with `UnknownCommandError` the moment its
unconsumed suffix starts with `"[]"`, whatever was consumed before; (4) in
particular tokenising `"[]"` itself raises rather than pushing an empty
`Text`. -/
theorem c10_empty_text_literal_rejected :
    (∀ (s : List Char) (n : ℕ), stringMatch s = some n → 3 ≤ n) ∧
    (∀ s : List Char, firstMatch registeredCommands ('[' :: ']' :: s) = none) ∧
    (∀ (consumed : ℕ) (s : List Char),
        tokeniseFrom consumed ('[' :: ']' :: s) = .error consumed) ∧
    tokenise "[]".toList = .error 0 := by
  have key1 : ∀ (s : List Char) (n : ℕ), stringMatch s = some n → 3 ≤ n := by
    intro s n h
    cases s with
    | nil => simp [stringMatch] at h
    | cons c cs =>
        by_cases hb : c = '['
        · simp only [stringMatch, hb, if_true] at h
          rcases hf : cs.findIdx? (fun x => x = ']') with _ | j <;> rw [hf] at h
          · cases h
          · by_cases h1 : 1 ≤ j
            · simp only [if_pos h1, Option.some.injEq] at h
              omega
            · simp only [if_neg h1] at h
              cases h
        · simp [stringMatch, hb] at h
  have key2 : ∀ s : List Char,
      firstMatch registeredCommands ('[' :: ']' :: s) = none := by
    intro s
    have h1 : isPySpace '[' = false := by decide
    have h2 : isConstChar '[' = false := by decide
    simp [registeredCommands, firstMatch, matchChar, commentMatch, constantMatch,
          stringMatch, h1, h2, List.findIdx?_cons]
  have key3 : ∀ (consumed : ℕ) (s : List Char),
      tokeniseFrom consumed ('[' :: ']' :: s) = .error consumed := by
    intro consumed s
    rw [tokeniseFrom_cons consumed _ (by simp), key2 s]
  exact ⟨key1, key2, key3, by decide⟩

/-- Witness for `c10_empty_text_literal_rejected`: the literal `"[ab]"`
matches 4 ≥ 3 characters, and a suffix `"[]xy"` fails wherever it starts. -/
theorem c10_witness :
    (3 : ℕ) ≤ 4 ∧ tokeniseFrom 7 ('[' :: ']' :: "xy".toList) = .error 7 :=
  ⟨c10_empty_text_literal_rejected.1 "[ab]".toList 4 (by decide),
   c10_empty_text_literal_rejected.2.2.1 7 "xy".toList⟩

/-- **C1**: for the binary operators `+ - * / ^`, the handler pops two
values `(b, a)` in pop order — `b`, on top and popped first, is the
RIGHT-hand operand — and pushes `a op b` (whenever `a op b` is defined,
`pyBinOp` giving Python's meaning of each combination); and the program
`"5 1 2 + 4 * + 3 -"`, run on an initially empty stack under the default
28-digit context, terminates successfully with the stack `[14]`. -/
theorem c1_binop_pop_order_and_example :
    (∀ (o : NumOp) (t : List Char) (ctx : Ctx) (va vb : Value)
        (rest : List Value) (v : Value),
        opOfText t = some o →
        pyBinOp o ctx va vb = some v →
        handlerOf .common_numerical t ⟨vb :: va :: rest, ctx⟩ = .ok ⟨v :: rest, ctx⟩) ∧
    ∀ g : Ctx, runText g ⟨[], ⟨28⟩⟩ "5 1 2 + 4 * + 3 -".toList
        = (none, ⟨[.num 14], ⟨28⟩⟩, g) := by
  constructor
  · intro o t ctx va vb rest v ho hv
    show common_numerical t ⟨vb :: va :: rest, ctx⟩ = _
    simp only [common_numerical, ho, popMany]
    rw [hv]
  · intro g
    have htok : tokenise ['5', ' ', '1', ' ', '2', ' ', '+', ' ', '4', ' ',
        '*', ' ', '+', ' ', '3', ' ', '-']
        = .ok [(['5'], Cmd.constant), ([' '], Cmd.whitespace),
               (['1'], Cmd.constant), ([' '], Cmd.whitespace),
               (['2'], Cmd.constant), ([' '], Cmd.whitespace),
               (['+'], Cmd.common_numerical), ([' '], Cmd.whitespace),
               (['4'], Cmd.constant), ([' '], Cmd.whitespace),
               (['*'], Cmd.common_numerical), ([' '], Cmd.whitespace),
               (['+'], Cmd.common_numerical), ([' '], Cmd.whitespace),
               (['3'], Cmd.constant), ([' '], Cmd.whitespace),
               (['-'], Cmd.common_numerical)] := by decide
    have hrun : runAux [(['5'], Cmd.constant), ([' '], Cmd.whitespace),
               (['1'], Cmd.constant), ([' '], Cmd.whitespace),
               (['2'], Cmd.constant), ([' '], Cmd.whitespace),
               (['+'], Cmd.common_numerical), ([' '], Cmd.whitespace),
               (['4'], Cmd.constant), ([' '], Cmd.whitespace),
               (['*'], Cmd.common_numerical), ([' '], Cmd.whitespace),
               (['+'], Cmd.common_numerical), ([' '], Cmd.whitespace),
               (['3'], Cmd.constant), ([' '], Cmd.whitespace),
               (['-'], Cmd.common_numerical)] ⟨[], ⟨28⟩⟩
        = (none, ⟨[.num 14], ⟨28⟩⟩) := by decide
    show runText g ⟨[], ⟨28⟩⟩ ['5', ' ', '1', ' ', '2', ' ', '+', ' ', '4', ' ',
        '*', ' ', '+', ' ', '3', ' ', '-'] = _
    simp [runText, htok, runTop, hrun]

/-- Witness for `c1_binop_pop_order_and_example`: executing `+` on a stack
holding `2` above `1` (so `2` was popped first) pushes `1 + 2 = 3`. -/
theorem c1_witness :
    handlerOf .common_numerical ['+'] ⟨[.num 2, .num 1, .num 9], ⟨28⟩⟩
      = .ok ⟨[.num 3, .num 9], ⟨28⟩⟩ :=
  c1_binop_pop_order_and_example.1 .add ['+'] ⟨28⟩ (.num 1) (.num 2) [.num 9]
    (.num 3) (by decide) (by decide)

/-- **C9**: precision round-trip and its effect on division.  (1) With an
integer `p` (valid as a precision: `1 ≤ p ≤ maxPrec`, cf. §7 of the spec,
which makes invalid precision values fatal) on top of the stack, executing
`k` then `K` pops `p`, sets the working precision to `p`, and pushes exactly
`p` back, leaving the rest untouched.  (2) Under precision `p`, the `/`
handler pushes the exact quotient rounded to `p` significant digits —
`roundSig p (a / b)` — so the precision just set determines the digit count
of the next division's result.  (3–4) Concretely, `"1 k 10 3 /"` yields
`[3]` (one significant digit) while `"2 k 10 3 /"` yields `[3.3]` (two). -/
theorem c9_precision_roundtrip_and_division :
    (∀ (p : ℕ) (rest : List Value) (ctx : Ctx) (t1 t2 : List Char),
        1 ≤ p → p ≤ maxPrec →
        runAux [(t1, .set_precision), (t2, .get_precision)] ⟨.num p :: rest, ctx⟩
          = (none, ⟨.num p :: rest, ⟨p⟩⟩)) ∧
    (∀ (p : ℕ) (a b : ℚ) (rest : List Value),
        b ≠ 0 →
        handlerOf .common_numerical ['/'] ⟨.num b :: .num a :: rest, ⟨p⟩⟩
          = .ok ⟨.num (roundSig p (a / b)) :: rest, ⟨p⟩⟩) ∧
    runText ⟨28⟩ ⟨[], ⟨28⟩⟩ "1 k 10 3 /".toList
      = (none, ⟨[.num 3], ⟨28⟩⟩, ⟨28⟩) ∧
    runText ⟨28⟩ ⟨[], ⟨28⟩⟩ "2 k 10 3 /".toList
      = (none, ⟨[.num (33 / 10)], ⟨28⟩⟩, ⟨28⟩) := by
  refine ⟨?_, ?_, by decide, ?_⟩
  · intro p rest ctx t1 t2 hp1 hp2
    have hint : pyInt (Value.num (p : ℚ)) = some (p : ℤ) := by
      simp [pyInt, ratTrunc_natCast]
    simp only [runAux, handlerOf, set_precision, hint]
    rw [if_pos ⟨by exact_mod_cast hp1, by exact_mod_cast hp2⟩]
    simp only [Int.toNat_natCast, get_precision, runAux]
  · intro p a b rest hb
    have hop : opOfText ['/'] = some NumOp.div := rfl
    show common_numerical ['/'] ⟨.num b :: .num a :: rest, ⟨p⟩⟩ = _
    simp only [common_numerical, hop, popMany, pyBinOp, if_neg hb]
    rw [qDiv_eq]
  · have h33 : (33 / 10 : ℚ) = Rat.divInt 33 10 := by
      rw [Rat.divInt_eq_div]
      norm_num
    rw [h33]
    decide

/-- Witness for `c9_precision_roundtrip_and_division`: set precision 2, read
it back; divide `10` by `3` at precision 2. -/
theorem c9_witness :
    runAux [(['k'], Cmd.set_precision), (['K'], Cmd.get_precision)]
        ⟨[.num ((2 : ℕ) : ℚ), .num 7], ⟨28⟩⟩
      = (none, ⟨[.num ((2 : ℕ) : ℚ), .num 7], ⟨2⟩⟩) ∧
    handlerOf .common_numerical ['/'] ⟨[.num 3, .num 10], ⟨2⟩⟩
      = .ok ⟨[.num (roundSig 2 (10 / 3))], ⟨2⟩⟩ :=
  ⟨c9_precision_roundtrip_and_division.1 2 [.num 7] ⟨28⟩ ['k'] ['K']
      (by decide) (by decide),
   c9_precision_roundtrip_and_division.2.1 2 10 3 [] (by norm_num)⟩

/-- **C4, counterexample to the claim as stated.**  Executing `"0 R"` on a
stack holding `1` below `2` does NOT leave the (count-less) stack unchanged
as a no-op: the run halts with `EmptyStackError` (the handler's
`deque(...).popleft()` raises `IndexError` on the empty rotation group).
And `"5 R"` on the three-element stack `1, 2, 3` (count `5 ≥ depth 3`) is
not a no-op on ordering either: it rotates the whole stack by one position,
`[3, 1, 2] ≠ [1, 2, 3]` (top first). -/
theorem c4_counterexample :
    (runText ⟨28⟩ ⟨[.num 2, .num 1], ⟨28⟩⟩ "0 R".toList).1 = some Err.emptyStack ∧
    runText ⟨28⟩ ⟨[.num 1, .num 2, .num 3], ⟨28⟩⟩ "5 R".toList
      = (none, ⟨[.num 3, .num 1, .num 2], ⟨28⟩⟩, ⟨28⟩) ∧
    [Value.num 3, Value.num 1, Value.num 2]
      ≠ [Value.num 1, Value.num 2, Value.num 3] :=
  ⟨by decide, by decide, by decide⟩

/-- **C4, amended.**  (1) With count `0` the rotation group is empty, so `R`
pops the count and then halts with `EmptyStackError` (the `deque` rotation
raises `IndexError`), leaving the remaining stack otherwise unchanged;
(2) likewise with any count when the stack is empty after the count is
popped; (3) with a nonnegative count at least the depth of a nonempty
stack, `R` rotates the ENTIRE stack one position toward the bottom — the
bottom element becomes the new top (not a no-op for depth ≥ 2); (4) for
every nonzero count `n` on a nonempty stack, `R` with count `-n` rotates
the same `min |n| depth` elements in the opposite direction: it exactly
undoes `R` with count `n`. -/
theorem c4_rotate_amended :
    (∀ (s : List Value) (c : Ctx) (t : List Char),
        handlerOf .rotate t ⟨.num 0 :: s, c⟩ = .error (.emptyStack, ⟨s, c⟩)) ∧
    (∀ (q : ℚ) (c : Ctx) (t : List Char),
        handlerOf .rotate t ⟨[.num q], c⟩ = .error (.emptyStack, ⟨[], c⟩)) ∧
    (∀ (n : ℕ) (s : List Value) (c : Ctx) (t : List Char) (hs : s ≠ []),
        s.length ≤ n →
        handlerOf .rotate t ⟨.num ((n : ℕ) : ℚ) :: s, c⟩
          = .ok ⟨s.getLast hs :: s.dropLast, c⟩) ∧
    (∀ (n : ℤ) (s s' : List Value) (c : Ctx) (t : List Char),
        n ≠ 0 → s ≠ [] →
        handlerOf .rotate t ⟨.num ((n : ℤ) : ℚ) :: s, c⟩ = .ok ⟨s', c⟩ →
        handlerOf .rotate t ⟨.num ((-n : ℤ) : ℚ) :: s', c⟩ = .ok ⟨s, c⟩) := by
  refine ⟨?_, ?_, ?_, ?_⟩
  · intro s c t
    show rotate t ⟨.num 0 :: s, c⟩ = _
    have h0 : pyInt (Value.num 0) = some 0 := by decide
    simp [rotate, h0, rotOnce]
  · intro q c t
    show rotate t ⟨[.num q], c⟩ = _
    simp [rotate, pyInt, rotOnce]
  · intro n s c t hs hlen
    show rotate t ⟨.num ((n : ℕ) : ℚ) :: s, c⟩ = _
    have hgs : s.reverse ≠ [] := by simpa using hs
    have hmin : min ((n : ℕ) : ℤ).natAbs s.length = s.length := by
      simp only [Int.natAbs_ofNat]
      exact min_eq_right hlen
    have hd : decide (0 ≤ ((n : ℕ) : ℤ)) = true := by simp
    have hrot : rotOnce (decide (0 ≤ ((n : ℕ) : ℤ)))
        ((s.take (min ((n : ℕ) : ℤ).natAbs s.length)).reverse)
        = some (s.reverse.tail ++ [s.reverse.head hgs]) := by
      rw [hmin, List.take_length, hd]
      exact rotOnce_down s.reverse hgs
    have key := rotate_run ((n : ℕ) : ℤ) s c t _ hrot
    rw [show ((n : ℕ) : ℚ) = (((n : ℕ) : ℤ) : ℚ) from by push_cast; rfl]
    rw [key, hmin, List.drop_length, List.append_nil]
    simp only [List.reverse_append, List.reverse_cons, List.reverse_nil,
      List.nil_append, List.tail_reverse, List.reverse_reverse, List.head_reverse,
      List.singleton_append]
  · intro n s s' c t hn hs hrun
    have hlen1 : 1 ≤ s.length := List.length_pos.mpr hs
    have habs : 1 ≤ n.natAbs := Int.natAbs_pos.mpr hn
    have hm1 : 1 ≤ min n.natAbs s.length := le_min habs hlen1
    have htk : (s.take (min n.natAbs s.length)).length = min n.natAbs s.length := by
      rw [List.length_take]
      exact min_eq_left (min_le_right _ _)
    have hg : (s.take (min n.natAbs s.length)).reverse ≠ [] := by
      intro hcon
      have hL := congrArg List.length hcon
      rw [List.length_reverse, htk] at hL
      simp only [List.length_nil] at hL
      omega
    rw [show handlerOf Cmd.rotate = rotate from rfl] at hrun ⊢
    rcases lt_or_gt_of_ne hn with hneg | hpos
    · -- n < 0: the run rotated upward; count -n > 0 rotates downward, undoing it
      have hrot1 : rotOnce (decide (0 ≤ n)) ((s.take (min n.natAbs s.length)).reverse)
          = some ((s.take (min n.natAbs s.length)).reverse.getLast hg
                  :: (s.take (min n.natAbs s.length)).reverse.dropLast) := by
        rw [show decide (0 ≤ n) = false from by
          simp only [decide_eq_false_iff_not]; omega]
        exact rotOnce_up _ hg
      rw [rotate_run n s c t _ hrot1] at hrun
      simp only [Except.ok.injEq, ExecSt.mk.injEq, and_true] at hrun
      subst hrun
      have hRlen : (((s.take (min n.natAbs s.length)).reverse.getLast hg
            :: (s.take (min n.natAbs s.length)).reverse.dropLast)).length
          = min n.natAbs s.length := by
        simp only [List.length_cons, List.length_dropLast, List.length_reverse, htk]
        omega
      have hslen : (((s.take (min n.natAbs s.length)).reverse.getLast hg
            :: (s.take (min n.natAbs s.length)).reverse.dropLast).reverse
              ++ s.drop (min n.natAbs s.length)).length = s.length := by
        rw [List.length_append, List.length_reverse, hRlen, List.length_drop]
        omega
      have hm2 : min (-n).natAbs (((s.take (min n.natAbs s.length)).reverse.getLast hg
            :: (s.take (min n.natAbs s.length)).reverse.dropLast).reverse
              ++ s.drop (min n.natAbs s.length)).length = min n.natAbs s.length := by
        rw [Int.natAbs_neg, hslen]
      have hrot2 : rotOnce (decide (0 ≤ -n))
          (((((s.take (min n.natAbs s.length)).reverse.getLast hg
            :: (s.take (min n.natAbs s.length)).reverse.dropLast).reverse
              ++ s.drop (min n.natAbs s.length)).take
                (min (-n).natAbs (((s.take (min n.natAbs s.length)).reverse.getLast hg
                  :: (s.take (min n.natAbs s.length)).reverse.dropLast).reverse
                    ++ s.drop (min n.natAbs s.length)).length)).reverse)
          = some ((s.take (min n.natAbs s.length)).reverse) := by
        rw [hm2, List.take_left' (by rw [List.length_reverse, hRlen]),
          List.reverse_reverse,
          show decide (0 ≤ -n) = true from by
            simp only [decide_eq_true_eq]; omega]
        exact rotOnce_down_up _ hg
      rw [rotate_run (-n) _ c t _ hrot2, hm2,
        List.drop_left' (by rw [List.length_reverse, hRlen]),
        List.reverse_reverse, List.take_append_drop]
    · -- n > 0: the run rotated downward; count -n < 0 rotates upward, undoing it
      have hrot1 : rotOnce (decide (0 ≤ n)) ((s.take (min n.natAbs s.length)).reverse)
          = some ((s.take (min n.natAbs s.length)).reverse.tail
                  ++ [(s.take (min n.natAbs s.length)).reverse.head hg]) := by
        rw [show decide (0 ≤ n) = true from by
          simp only [decide_eq_true_eq]; omega]
        exact rotOnce_down _ hg
      rw [rotate_run n s c t _ hrot1] at hrun
      simp only [Except.ok.injEq, ExecSt.mk.injEq, and_true] at hrun
      subst hrun
      have hRlen : (((s.take (min n.natAbs s.length)).reverse.tail
            ++ [(s.take (min n.natAbs s.length)).reverse.head hg])).length
          = min n.natAbs s.length := by
        simp only [List.length_append, List.length_tail, List.length_reverse,
          List.length_cons, List.length_nil, htk]
        omega
      have hslen : (((s.take (min n.natAbs s.length)).reverse.tail
            ++ [(s.take (min n.natAbs s.length)).reverse.head hg]).reverse
              ++ s.drop (min n.natAbs s.length)).length = s.length := by
        rw [List.length_append, List.length_reverse, hRlen, List.length_drop]
        omega
      have hm2 : min (-n).natAbs (((s.take (min n.natAbs s.length)).reverse.tail
            ++ [(s.take (min n.natAbs s.length)).reverse.head hg]).reverse
              ++ s.drop (min n.natAbs s.length)).length = min n.natAbs s.length := by
        rw [Int.natAbs_neg, hslen]
      have hrot2 : rotOnce (decide (0 ≤ -n))
          (((((s.take (min n.natAbs s.length)).reverse.tail
            ++ [(s.take (min n.natAbs s.length)).reverse.head hg]).reverse
              ++ s.drop (min n.natAbs s.length)).take
                (min (-n).natAbs (((s.take (min n.natAbs s.length)).reverse.tail
                  ++ [(s.take (min n.natAbs s.length)).reverse.head hg]).reverse
                    ++ s.drop (min n.natAbs s.length)).length)).reverse)
          = some ((s.take (min n.natAbs s.length)).reverse) := by
        rw [hm2, List.take_left' (by rw [List.length_reverse, hRlen]),
          List.reverse_reverse,
          show decide (0 ≤ -n) = false from by
            simp only [decide_eq_false_iff_not]; omega]
        exact rotOnce_up_down _ hg
      rw [rotate_run (-n) _ c t _ hrot2, hm2,
        List.drop_left' (by rw [List.length_reverse, hRlen]),
        List.reverse_reverse, List.take_append_drop]


/-- Witness for `c4_rotate_amended`: rotating a three-element stack with
count `3` moves the bottom to the top, and count `-3` undoes it. -/
theorem c4_witness :
    handlerOf .rotate ['R'] ⟨[.num ((3 : ℕ) : ℚ), .num 10, .num 20, .num 30], ⟨28⟩⟩
      = .ok ⟨[.num 30, .num 10, .num 20], ⟨28⟩⟩ ∧
    handlerOf .rotate ['R'] ⟨[.num (((-3) : ℤ) : ℚ), .num 30, .num 10, .num 20], ⟨28⟩⟩
      = .ok ⟨[.num 10, .num 20, .num 30], ⟨28⟩⟩ :=
  ⟨c4_rotate_amended.2.2.1 3 [.num 10, .num 20, .num 30] ⟨28⟩ ['R']
      (by decide) (by decide),
   c4_rotate_amended.2.2.2 3 [.num 10, .num 20, .num 30] [.num 30, .num 10, .num 20]
      ⟨28⟩ ['R'] (by decide) (by decide) (by decide)⟩

/-- **C6**: stack underflow.  (1) Whenever a run halts with an error, the
program splits into a successfully executed prefix, the failing token, and
an unconsumed remainder; the final state is EXACTLY the state the failing
handler's own (partial) mutations produced from the prefix's result — prior
mutations are kept, nothing is rolled back, and no later token runs.
(2) Whenever a handler needs more operands than are present (fewer values
than its arity; for `[-+*/^]` with one of its five operator texts, whose
`ops` lookup precedes the pops), it fails with `EmptyStackError` — the
defined error, not an unhandled fault — having popped every value that was
available. -/
theorem c6_underflow_halts_without_rollback :
    (∀ (prog : List Token) (st : ExecSt) (e : ExecErr) (st' : ExecSt),
        runAux prog st = (some e, st') →
        ∃ (pfx : List Token) (tok : Token) (rest : List Token) (stMid : ExecSt),
          prog = pfx ++ tok :: rest ∧
          runAux pfx st = (none, stMid) ∧
          handlerOf tok.2 tok.1 stMid = .error (e, st')) ∧
    (∀ (t : List Char) (cmd : Cmd) (st : ExecSt),
        (cmd = .common_numerical → (opOfText t).isSome) →
        st.vals.length < arity cmd →
        handlerOf cmd t st = .error (.emptyStack, ⟨[], st.ctx⟩)) := by
  constructor
  · intro prog
    induction prog with
    | nil =>
        intro st e st' h
        simp [runAux] at h
    | cons tok rest ih =>
        obtain ⟨text, cmd⟩ := tok
        intro st e st' h
        rcases hh : handlerOf cmd text st with ⟨e1, st1⟩ | st1
        · simp only [runAux, hh] at h
          simp only [Prod.mk.injEq, Option.some.injEq] at h
          obtain ⟨rfl, rfl⟩ := h
          exact ⟨[], (text, cmd), rest, st, rfl, rfl, hh⟩
        · simp only [runAux, hh] at h
          obtain ⟨pfx, tok2, rest2, stMid, hsplit, hpfx, hfail⟩ := ih st1 e st' h
          refine ⟨(text, cmd) :: pfx, tok2, rest2, stMid, by rw [hsplit]; rfl, ?_, hfail⟩
          simp only [runAux, hh, hpfx]
  · intro t cmd st hop hlt
    obtain ⟨vals, ctx⟩ := st
    cases cmd <;> simp only [arity] at hlt
    case whitespace => omega
    case comment => omega
    case constant => omega
    case string => omega
    case get_radix => omega
    case get_precision => omega
    case print_stack => omega
    case clear => omega
    case stack_depth => omega
    case set_precision =>
        cases vals with
        | nil => rfl
        | cons v vs => simp at hlt
    case rotate =>
        cases vals with
        | nil => rfl
        | cons v vs => simp at hlt
    case duplicate =>
        cases vals with
        | nil => rfl
        | cons v vs => simp at hlt
    case square_root =>
        cases vals with
        | nil => rfl
        | cons v vs => simp at hlt
    case swap =>
        cases vals with
        | nil => rfl
        | cons v vs =>
            cases vs with
            | nil => rfl
            | cons w ws => simp at hlt; omega
    case common_numerical =>
        obtain ⟨o, ho⟩ := Option.isSome_iff_exists.mp (hop rfl)
        show common_numerical t ⟨vals, ctx⟩ = _
        simp only [common_numerical, ho]
        cases vals with
        | nil => rfl
        | cons v vs =>
            cases vs with
            | nil => rfl
            | cons w ws => simp at hlt; omega
    case remainder =>
        cases vals with
        | nil => rfl
        | cons v vs =>
            cases vs with
            | nil => rfl
            | cons w ws => simp at hlt; omega
    case div_mod =>
        cases vals with
        | nil => rfl
        | cons v vs =>
            cases vs with
            | nil => rfl
            | cons w ws => simp at hlt; omega
    case mod_exponentiation =>
        cases vals with
        | nil => rfl
        | cons v vs =>
            cases vs with
            | nil => rfl
            | cons w ws =>
                cases ws with
                | nil => rfl
                | cons x xs => simp at hlt; omega

/-- Witness for `c6_underflow_halts_without_rollback`: running
`"1 2 + +"` pushes `1`, `2`, adds them, then underflows on the second `+`
after popping the lone `3`; the run halts with `EmptyStackError` and the
final stack is the partially mutated (emptied) one.  The handler-level
conjunct is exercised on `+` with a single operand present. -/
theorem c6_witness :
    (∃ (pfx : List Token) (tok : Token) (rest : List Token) (stMid : ExecSt),
        [(['1'], Cmd.constant), ([' '], Cmd.whitespace),
         (['2'], Cmd.constant), ([' '], Cmd.whitespace),
         (['+'], Cmd.common_numerical), ([' '], Cmd.whitespace),
         (['+'], Cmd.common_numerical)]
          = pfx ++ tok :: rest ∧
        runAux pfx ⟨[], ⟨28⟩⟩ = (none, stMid) ∧
        handlerOf tok.2 tok.1 stMid = .error (.emptyStack, ⟨[], ⟨28⟩⟩)) ∧
    handlerOf .common_numerical ['+'] ⟨[.num 3], ⟨28⟩⟩
      = .error (.emptyStack, ⟨[], ⟨28⟩⟩) :=
  ⟨c6_underflow_halts_without_rollback.1
      [(['1'], Cmd.constant), ([' '], Cmd.whitespace),
       (['2'], Cmd.constant), ([' '], Cmd.whitespace),
       (['+'], Cmd.common_numerical), ([' '], Cmd.whitespace),
       (['+'], Cmd.common_numerical)]
      ⟨[], ⟨28⟩⟩ .emptyStack ⟨[], ⟨28⟩⟩ (by decide),
   c6_underflow_halts_without_rollback.2 ['+'] .common_numerical ⟨[.num 3], ⟨28⟩⟩
      (fun _ => by decide) (by decide)⟩

end VisualDC
